import Mathlib

/-!
Verification of the mortgage-deployment HTTP server (`src/server.js`).

The server's own logic is pure string processing plus two effectful calls
(an LLM API and a `truffle` subprocess).  We shallowly embed every piece of
string logic the specification's claims refer to, working on `List Char`
(JavaScript strings are sequences of characters; none of the claims depend
on surrogate-pair subtleties):

* `stripMarkdownFences` — the two chained `String.replace` regex passes plus
  `trim` (server.js lines 39-49);
* `rewriteContract` — the `/contract\s+CustomMortgageLoan\b/g` global
  replacement (lines 150-153);
* `matchAddrAt` / `findAddr` / `execCallback` — the
  `/contract address:\s+(0x[a-fA-F0-9]+)/` scrape of truffle stdout and the
  HTTP response selection in the `exec` callback (lines 184-206);
* the prompt templates, file names and migration template (lines 59-73,
  106-120, 137-176).

JavaScript `String.prototype.replace` with a `/g` regex scans left to right,
at each index attempting a match; on failure it advances one character, on
success it emits the replacement and resumes after the match.  The recursive
functions below implement exactly that discipline.
-/

namespace Server

/-- The backtick character (code point 96), written via `Char.ofNat`. -/
def btick : Char := Char.ofNat 96

/-- Whitespace as matched by the regexes' `\s` and by `String.prototype.trim`
(we model the ASCII subset: space, tab, LF, CR, VT, FF; the claims do not
depend on exotic Unicode space characters). -/
def isWS (c : Char) : Bool :=
  c == ' ' || c == '\t' || c == '\n' || c == '\r' || c == '\x0b' || c == '\x0c'

/-- Word characters as matched by the regexes' `\w` (and used by `\b`):
`[A-Za-z0-9_]`. -/
def isWordChar (c : Char) : Bool :=
  c.isAlphanum || c == '_'

/-- Hexadecimal digits as matched by `[a-fA-F0-9]`. -/
def isHexChar (c : Char) : Bool :=
  c.isDigit || (decide ('a' ≤ c) && decide (c ≤ 'f'))
    || (decide ('A' ≤ c) && decide (c ≤ 'F'))

theorem dropWhile_length_le (p : Char → Bool) (l : List Char) :
    (l.dropWhile p).length ≤ l.length := by
  induction l with
  | nil => simp
  | cons a t ih =>
    rw [List.dropWhile_cons]
    split
    · exact Nat.le_trans ih (by simp)
    · simp

/-- First `replace` pass of `stripMarkdownFences` (server.js line 45):
global replacement of ``` optionally followed by a language-tag word
(the regex is three backticks then `(\w+)?`) by the empty string. -/
def dropFences : List Char → List Char
  | [] => []
  | [c] => [c]
  | [c, d] => [c, d]
  | c1 :: c2 :: c3 :: rest =>
    if c1 = btick ∧ c2 = btick ∧ c3 = btick then
      dropFences (rest.dropWhile isWordChar)
    else
      c1 :: dropFences (c2 :: c3 :: rest)
termination_by l => l.length
decreasing_by
  · simp only [List.length_cons]
    have h := dropWhile_length_le isWordChar rest
    omega
  · simp only [List.length_cons]
    omega

/-- Second `replace` pass of `stripMarkdownFences` (server.js line 47):
global replacement of any leftover triple backtick by the empty string. -/
def dropTriples : List Char → List Char
  | [] => []
  | [c] => [c]
  | [c, d] => [c, d]
  | c1 :: c2 :: c3 :: rest =>
    if c1 = btick ∧ c2 = btick ∧ c3 = btick then
      dropTriples rest
    else
      c1 :: dropTriples (c2 :: c3 :: rest)

/-- Left trim: drop leading whitespace. -/
def trimL (l : List Char) : List Char := l.dropWhile isWS

/-- Right trim: drop trailing whitespace. -/
def trimR (l : List Char) : List Char := (l.reverse.dropWhile isWS).reverse

/-- Model of `String.prototype.trim` (server.js line 48): remove leading and trailing
whitespace. -/
def jsTrim (l : List Char) : List Char := trimR (trimL l)

/-- Model of `stripMarkdownFences` (server.js lines 39-49): the two regex passes
followed by `trim`. -/
def stripMarkdownFences (text : List Char) : List Char :=
  jsTrim (dropTriples (dropFences text))

/-- Holds iff the text contains three consecutive backtick characters
somewhere (a leftover fence marker). -/
def hasTriple : List Char → Bool
  | c1 :: c2 :: c3 :: rest =>
    (c1 == btick && c2 == btick && c3 == btick) || hasTriple (c2 :: c3 :: rest)
  | _ => false

example : hasTriple [btick, btick, btick] = true := by decide

example : hasTriple ('a' :: [btick, btick]) = false := by decide

theorem ht_cons_ne {c : Char} (h : c ≠ btick) (l : List Char) :
    hasTriple (c :: l) = hasTriple l := by
  match l with
  | [] => simp [hasTriple]
  | [a] => simp [hasTriple]
  | a :: b :: t => simp [hasTriple, beq_eq_false_iff_ne.mpr h]

theorem ht_cons_mid {b : Char} (h : b ≠ btick) (a : Char) (l : List Char) :
    hasTriple (a :: b :: l) = hasTriple l := by
  match l with
  | [] => simp [hasTriple]
  | x :: t =>
    have h2 : hasTriple (b :: x :: t) = hasTriple (x :: t) := ht_cons_ne h _
    simp [hasTriple, beq_eq_false_iff_ne.mpr h] at h2 ⊢
    exact h2

theorem ht_tail {c : Char} {l : List Char} (h : hasTriple (c :: l) = false) :
    hasTriple l = false := by
  match l with
  | [] => simp [hasTriple]
  | [a] => simp [hasTriple]
  | a :: b :: t =>
    simp only [hasTriple, Bool.or_eq_false_iff] at h
    exact h.2

theorem ht_append_left {l1 : List Char} (h : hasTriple l1 = true) (l2 : List Char) :
    hasTriple (l1 ++ l2) = true := by
  induction l1 with
  | nil => simp [hasTriple] at h
  | cons a t ih =>
    match t with
    | [] => simp [hasTriple] at h
    | [b] => simp [hasTriple] at h
    | b :: c :: r =>
      simp only [hasTriple, Bool.or_eq_true] at h
      rcases h with h | h
      · simp only [List.cons_append, hasTriple, Bool.or_eq_true]
        exact Or.inl h
      · simp only [List.cons_append, hasTriple, Bool.or_eq_true]
        right
        have := ih h
        simpa using this

theorem ht_prefix_false {l1 l2 : List Char} (h : hasTriple (l1 ++ l2) = false) :
    hasTriple l1 = false := by
  cases hx : hasTriple l1 with
  | false => rfl
  | true => rw [ht_append_left hx l2] at h; simp at h

theorem ht_dropWhile (p : Char → Bool) {l : List Char} (h : hasTriple l = false) :
    hasTriple (l.dropWhile p) = false := by
  induction l with
  | nil => simpa using h
  | cons a t ih =>
    rw [List.dropWhile_cons]
    split
    · exact ih (ht_tail h)
    · exact h

theorem dt_cons_ne {c : Char} (h : c ≠ btick) (l : List Char) :
    dropTriples (c :: l) = c :: dropTriples l := by
  match l with
  | [] => simp [dropTriples]
  | [a] => simp [dropTriples]
  | a :: b :: t =>
    have : ¬(c = btick ∧ a = btick ∧ b = btick) := by
      intro hh; exact h hh.1
    simp [dropTriples, this]

theorem dt_cons2_ne {c : Char} (h : c ≠ btick) (l : List Char) :
    dropTriples (btick :: c :: l) = btick :: c :: dropTriples l := by
  match l with
  | [] => simp [dropTriples]
  | a :: t =>
    have hcond : ¬(btick = btick ∧ c = btick ∧ a = btick) := by
      intro hh; exact h hh.2.1
    have e : dropTriples (btick :: c :: a :: t)
        = if btick = btick ∧ c = btick ∧ a = btick then dropTriples t
          else btick :: dropTriples (c :: a :: t) := rfl
    rw [e, if_neg hcond, dt_cons_ne h]

theorem noTriple_dropTriples (l : List Char) : hasTriple (dropTriples l) = false := by
  have H : ∀ n (l : List Char), l.length ≤ n → hasTriple (dropTriples l) = false := by
    intro n
    induction n with
    | zero =>
      intro l hl
      match l with
      | [] => simp [dropTriples, hasTriple]
    | succ n ih =>
      intro l hl
      match l with
      | [] => simp [dropTriples, hasTriple]
      | [c] => simp [dropTriples, hasTriple]
      | [c, d] => simp [dropTriples, hasTriple]
      | c1 :: c2 :: c3 :: rest =>
        by_cases h1 : c1 = btick
        · by_cases h2 : c2 = btick
          · by_cases h3 : c3 = btick
            · subst h1; subst h2; subst h3
              have e : dropTriples (btick :: btick :: btick :: rest)
                  = if btick = btick ∧ btick = btick ∧ btick = btick then dropTriples rest
                    else btick :: dropTriples (btick :: btick :: rest) := rfl
              rw [e, if_pos ⟨rfl, rfl, rfl⟩]
              exact ih rest (by simp at hl; omega)
            · subst h1; subst h2
              have hcond : ¬(btick = btick ∧ btick = btick ∧ c3 = btick) := by
                intro hh; exact h3 hh.2.2
              have e : dropTriples (btick :: btick :: c3 :: rest)
                  = if btick = btick ∧ btick = btick ∧ c3 = btick then dropTriples rest
                    else btick :: dropTriples (btick :: c3 :: rest) := rfl
              rw [e, if_neg hcond, dt_cons2_ne h3]
              have e1 : hasTriple (btick :: btick :: c3 :: dropTriples rest)
                  = hasTriple (btick :: c3 :: dropTriples rest) := by
                simp [hasTriple, beq_eq_false_iff_ne.mpr h3, ht_cons_mid h3]
              rw [e1, ht_cons_mid h3]
              exact ih rest (by simp at hl; omega)
          · subst h1
            have hcond : ¬(btick = btick ∧ c2 = btick ∧ c3 = btick) := by
              intro hh; exact h2 hh.2.1
            have e : dropTriples (btick :: c2 :: c3 :: rest)
                = if btick = btick ∧ c2 = btick ∧ c3 = btick then dropTriples rest
                  else btick :: dropTriples (c2 :: c3 :: rest) := rfl
            rw [e, if_neg hcond, dt_cons_ne h2, ht_cons_mid h2]
            exact ih (c3 :: rest) (by simp at hl ⊢; omega)
        · have hcond : ¬(c1 = btick ∧ c2 = btick ∧ c3 = btick) := by
            intro hh; exact h1 hh.1
          have e : dropTriples (c1 :: c2 :: c3 :: rest)
              = if c1 = btick ∧ c2 = btick ∧ c3 = btick then dropTriples rest
                else c1 :: dropTriples (c2 :: c3 :: rest) := rfl
          rw [e, if_neg hcond, ht_cons_ne h1]
          exact ih (c2 :: c3 :: rest) (by simp at hl ⊢; omega)
  exact H l.length l le_rfl

theorem ht_triple_head (c3 : List Char) :
    hasTriple (btick :: btick :: btick :: c3) = true := by
  simp [hasTriple]

theorem dropTriples_of_noTriple {l : List Char} (h : hasTriple l = false) :
    dropTriples l = l := by
  induction l with
  | nil => rfl
  | cons c1 t ih =>
    match t with
    | [] => rfl
    | [c2] => rfl
    | c2 :: c3 :: rest =>
      have hcond : ¬(c1 = btick ∧ c2 = btick ∧ c3 = btick) := by
        rintro ⟨rfl, rfl, rfl⟩
        rw [ht_triple_head] at h
        simp at h
      have e : dropTriples (c1 :: c2 :: c3 :: rest)
          = if c1 = btick ∧ c2 = btick ∧ c3 = btick then dropTriples rest
            else c1 :: dropTriples (c2 :: c3 :: rest) := rfl
      rw [e, if_neg hcond, ih (ht_tail h)]

theorem dropFences_of_noTriple {l : List Char} (h : hasTriple l = false) :
    dropFences l = l := by
  induction l with
  | nil => rw [dropFences]
  | cons c1 t ih =>
    match t with
    | [] => rw [dropFences]
    | [c2] => rw [dropFences]
    | c2 :: c3 :: rest =>
      have hcond : ¬(c1 = btick ∧ c2 = btick ∧ c3 = btick) := by
        rintro ⟨rfl, rfl, rfl⟩
        rw [ht_triple_head] at h
        simp at h
      rw [dropFences.eq_4, if_neg hcond, ih (ht_tail h)]

theorem dropWhile_head_false {p : Char → Bool} {l : List Char} {c : Char} {t : List Char}
    (h : l.dropWhile p = c :: t) : p c = false := by
  induction l with
  | nil => simp at h
  | cons a r ih =>
    rw [List.dropWhile_cons] at h
    split at h
    · exact ih h
    · cases h
      rename_i hneg
      cases hp : p c
      · rfl
      · exact absurd hp hneg

theorem dropWhile_idem (p : Char → Bool) (l : List Char) :
    (l.dropWhile p).dropWhile p = l.dropWhile p := by
  cases h : l.dropWhile p with
  | nil => rfl
  | cons c t =>
    rw [List.dropWhile_cons, dropWhile_head_false h]
    simp

theorem trimR_prefix (l : List Char) : ∃ t, l = trimR l ++ t := by
  refine ⟨(l.reverse.takeWhile isWS).reverse, ?_⟩
  conv_lhs => rw [← l.reverse_reverse, ← List.takeWhile_append_dropWhile isWS l.reverse]
  rw [List.reverse_append]
  rfl

theorem trimL_idem (l : List Char) : trimL (trimL l) = trimL l :=
  dropWhile_idem isWS l

theorem trimR_idem (l : List Char) : trimR (trimR l) = trimR l := by
  unfold trimR
  rw [List.reverse_reverse, dropWhile_idem]

theorem trimL_of_trimR_trimL (l : List Char) :
    trimL (trimR (trimL l)) = trimR (trimL l) := by
  cases h : trimR (trimL l) with
  | nil => rfl
  | cons c t =>
    obtain ⟨j, hj⟩ := trimR_prefix (trimL l)
    rw [h] at hj
    have hc : isWS c = false := by
      have : (trimL l).dropWhile isWS = trimL l := dropWhile_idem isWS l
      rw [hj] at this
      simp only [List.cons_append] at this
      exact dropWhile_head_false this
    unfold trimL
    rw [List.dropWhile_cons, hc]
    simp

theorem jsTrim_idem (l : List Char) : jsTrim (jsTrim l) = jsTrim l := by
  show trimR (trimL (trimR (trimL l))) = trimR (trimL l)
  rw [trimL_of_trimR_trimL, trimR_idem]

theorem ht_trimR {l : List Char} (h : hasTriple l = false) :
    hasTriple (trimR l) = false := by
  obtain ⟨j, hj⟩ := trimR_prefix l
  rw [hj] at h
  exact ht_prefix_false h

theorem ht_jsTrim {l : List Char} (h : hasTriple l = false) :
    hasTriple (jsTrim l) = false :=
  ht_trimR (ht_dropWhile isWS h)

theorem noTriple_strip (x : List Char) :
    hasTriple (stripMarkdownFences x) = false :=
  ht_jsTrim (noTriple_dropTriples (dropFences x))

/-- C7: for every input string, the output of `stripMarkdownFences` contains
no three consecutive backtick characters: after the two replacement passes
(fence opener with optional language tag, then bare triple backtick) and the
trim, no triple-backtick sequence remains anywhere in the result. -/
theorem stripMarkdownFences_no_triple_backticks (x : List Char) :
    hasTriple (stripMarkdownFences x) = false :=
  noTriple_strip x

/-- C2: the fence-stripping function is idempotent — applying
`stripMarkdownFences` twice yields the same result as applying it once. -/
theorem stripMarkdownFences_idempotent (x : List Char) :
    stripMarkdownFences (stripMarkdownFences x) = stripMarkdownFences x := by
  have hs := noTriple_strip x
  show jsTrim (dropTriples (dropFences (stripMarkdownFences x))) = stripMarkdownFences x
  rw [dropFences_of_noTriple hs, dropTriples_of_noTriple hs]
  exact jsTrim_idem (dropTriples (dropFences x))

/-- Match a literal pattern at the head of a list: `dropPre p l` returns
`some r` with `l = p ++ r` when `p` is a prefix of `l`, else `none`. -/
def dropPre : List Char → List Char → Option (List Char)
  | [], l => some l
  | _ :: _, [] => none
  | p :: ps, c :: cs => if c = p then dropPre ps cs else none

theorem dropPre_eq_some {p l r : List Char} (h : dropPre p l = some r) :
    l = p ++ r := by
  induction p generalizing l with
  | nil =>
    cases h
    rfl
  | cons a ps ih =>
    match l with
    | [] => simp [dropPre] at h
    | c :: cs =>
      simp only [dropPre] at h
      split at h
      · rename_i hc
        subst hc
        rw [List.cons_append, ih h]
      · simp at h

theorem dropPre_self_append (p r : List Char) : dropPre p (p ++ r) = some r := by
  induction p with
  | nil => rfl
  | cons a ps ih => simp [dropPre, ih]

/-- The literal scanned for in truffle stdout (server.js line 193). -/
def addrLit : List Char := "contract address:".toList

/-- Attempt the regex `/contract address:\s+(0x[a-fA-F0-9]+)/` at the head of
`l`; on success return the capture group (`0x` plus the maximal run of hex
digits).  `\s+` is greedy and the following character `0` is not whitespace,
so the greedy munch of all leading whitespace is exact. -/
def matchAddrAt (l : List Char) : Option (List Char) :=
  match dropPre addrLit l with
  | none => none
  | some r =>
    match r with
    | [] => none
    | c :: rt =>
      if isWS c then
        match (c :: rt).dropWhile isWS with
        | c0 :: c1 :: rest =>
          if c0 = '0' ∧ c1 = 'x' then
            match rest.takeWhile isHexChar with
            | [] => none
            | h :: hs => some ('0' :: 'x' :: h :: hs)
          else none
        | _ => none
      else none

/-- Model of `stdout.match(re)` for a non-global regex: try the match at each index
from the left and return the first capture (server.js lines 193-194). -/
def findAddr : List Char → Option (List Char)
  | [] => none
  | c :: rest =>
    match matchAddrAt (c :: rest) with
    | some a => some a
    | none => findAddr rest

/-- The JSON response produced by a route handler: HTTP status plus the
fields this server ever sets. -/
structure HttpResponse where
  status : Nat
  contractAddress : Option (List Char)
  info : Option (List Char)
  error : Option (List Char)
deriving DecidableEq, Repr

/-- Body of the 500 error response (server.js line 187). -/
def deployErrMsg : List Char := "Failed to compile or deploy contract".toList

/-- The hardcoded all-zero address (server.js line 199). -/
def zeroAddr : List Char := "0x0000000000000000000000000000000000000000".toList

/-- The informational note sent when no address is found (server.js line 200). -/
def noAddrInfo : List Char := "Contract deployed but no address found in logs.".toList

/-- The `exec` callback of `/auto-deploy` (server.js lines 184-206): on a
subprocess error respond 500 with the fixed message; otherwise scan stdout
for the address and answer 200 with either the parsed address or the
all-zero placeholder plus an informational note. -/
def execCallback (errored : Bool) (stdout : List Char) : HttpResponse :=
  if errored then
    ⟨500, none, none, some deployErrMsg⟩
  else
    match findAddr stdout with
    | some a => ⟨200, some a, none, none⟩
    | none => ⟨200, some zeroAddr, some noAddrInfo, none⟩

/-- Transcribed from the spec's wording, for comparison with the code:
the text begins with the literal "contract address:", followed by at least
one whitespace character, then "0x", then at least one hexadecimal digit. -/
def specStartsAddr (l : List Char) : Bool :=
  match dropPre addrLit l with
  | none => false
  | some r =>
    match r with
    | [] => false
    | c :: _ =>
      isWS c &&
        (match r.dropWhile isWS with
         | c0 :: c1 :: d :: _ => c0 == '0' && c1 == 'x' && isHexChar d
         | _ => false)

/-- Transcribed from the spec's wording: the text contains, at some
position, a substring matching "contract address:" + whitespace + a hex
string `0x…`. -/
def specContainsAddr : List Char → Bool
  | [] => false
  | c :: rest => specStartsAddr (c :: rest) || specContainsAddr rest

example : specContainsAddr "deployed at contract address: 0xAbc123 ok".toList = true := by
  decide

example : specContainsAddr "contract address:0xAbc123".toList = false := by
  decide

example : findAddr "log contract address:  0xAbc123 rest".toList
    = some "0xAbc123".toList := by decide

/-- Holds iff the list is empty or its head fails `p` (used to state that a
greedy `+` run is maximal). -/
def headNot (p : Char → Bool) : List Char → Bool
  | [] => true
  | c :: _ => !p c

theorem headNot_dropWhile (p : Char → Bool) (l : List Char) :
    headNot p (l.dropWhile p) = true := by
  induction l with
  | nil => rfl
  | cons a t ih =>
    rw [List.dropWhile_cons]
    split
    · exact ih
    · rename_i hneg
      simp only [headNot, Bool.not_eq_true']
      cases hp : p a
      · rfl
      · exact absurd hp hneg

theorem dropWhile_all_head {p : Char → Bool} {ws : List Char}
    (hws : ∀ c ∈ ws, p c = true) {c0 : Char} (h0 : p c0 = false) (t : List Char) :
    (ws ++ c0 :: t).dropWhile p = c0 :: t := by
  rw [List.dropWhile_append_of_pos hws, List.dropWhile_cons_of_neg (by simp [h0])]

theorem takeWhile_all_head {p : Char → Bool} {hex : List Char}
    (hh : ∀ c ∈ hex, p c = true) {post : List Char} (hp : headNot p post = true) :
    (hex ++ post).takeWhile p = hex := by
  induction hex with
  | nil =>
    match post with
    | [] => rfl
    | c :: t =>
      simp only [headNot, Bool.not_eq_true'] at hp
      simpa using @List.takeWhile_cons_of_neg _ p c t (by simp [hp])
  | cons a t ih =>
    rw [List.cons_append,
      List.takeWhile_cons_of_pos (by simpa using hh a (by simp)),
      ih (fun c hc => hh c (by simp [hc]))]

theorem matchAddrAt_of_parts {ws hex post : List Char}
    (h1 : ws ≠ []) (h2 : ∀ c ∈ ws, isWS c = true)
    (h3 : hex ≠ []) (h4 : ∀ c ∈ hex, isHexChar c = true)
    (h5 : headNot isHexChar post = true) :
    matchAddrAt (addrLit ++ (ws ++ '0' :: 'x' :: (hex ++ post)))
      = some ('0' :: 'x' :: hex) := by
  obtain ⟨w, ws', rfl⟩ := List.exists_cons_of_ne_nil h1
  obtain ⟨h, hs, rfl⟩ := List.exists_cons_of_ne_nil h3
  have hw : isWS w = true := h2 w (by simp)
  have e1 : dropPre addrLit (addrLit ++ ((w :: ws') ++ '0' :: 'x' :: ((h :: hs) ++ post)))
      = some ((w :: ws') ++ '0' :: 'x' :: ((h :: hs) ++ post)) :=
    dropPre_self_append _ _
  have e2 : ((w :: ws') ++ '0' :: 'x' :: ((h :: hs) ++ post)).dropWhile isWS
      = '0' :: 'x' :: ((h :: hs) ++ post) :=
    dropWhile_all_head h2 (by decide) _
  have e3 : ((h :: hs) ++ post).takeWhile isHexChar = h :: hs :=
    takeWhile_all_head h4 h5
  simp only [List.cons_append] at e1 e2 e3 ⊢
  simp only [matchAddrAt, e1, hw, if_true, e2, e3]
  simp

theorem matchAddrAt_sound {l a : List Char} (h : matchAddrAt l = some a) :
    ∃ ws hex post,
      l = addrLit ++ (ws ++ '0' :: 'x' :: (hex ++ post)) ∧
      ws ≠ [] ∧ ws.all isWS = true ∧ hex ≠ [] ∧ hex.all isHexChar = true ∧
      headNot isHexChar post = true ∧ a = '0' :: 'x' :: hex := by
  unfold matchAddrAt at h
  split at h
  · simp at h
  · rename_i r hdp
    split at h
    · simp at h
    · rename_i c rt
      split at h
      · rename_i hc
        split at h
        · rename_i c0 c1 rest hdw
          split at h
          · rename_i hcond
            split at h
            · simp at h
            · rename_i hx hxs htw
              have ha : a = '0' :: 'x' :: hx :: hxs := by
                cases h; rfl
              obtain ⟨rfl, rfl⟩ := hcond
              refine ⟨(c :: rt).takeWhile isWS, hx :: hxs, rest.dropWhile isHexChar,
                ?_, ?_, ?_, ?_, ?_, ?_, ha⟩
              · have e1 : l = addrLit ++ (c :: rt) := dropPre_eq_some hdp
                have e2 : (c :: rt).takeWhile isWS ++ '0' :: 'x' :: rest = c :: rt := by
                  conv_rhs => rw [← List.takeWhile_append_dropWhile isWS (c :: rt)]
                  rw [hdw]
                have e3 : (hx :: hxs) ++ rest.dropWhile isHexChar = rest := by
                  conv_rhs => rw [← List.takeWhile_append_dropWhile isHexChar rest]
                  rw [htw]
                rw [← e3] at e2
                rw [e1]
                conv_rhs => rw [e2]
              · rw [List.takeWhile_cons_of_pos hc]
                simp
              · exact List.all_takeWhile
              · simp
              · have := @List.all_takeWhile Char isHexChar rest
                rw [htw] at this
                exact this
              · exact headNot_dropWhile isHexChar rest
          · simp at h
        · simp at h
      · simp at h

theorem specStartsAddr_eq (l : List Char) :
    specStartsAddr l = (matchAddrAt l).isSome := by
  unfold specStartsAddr matchAddrAt
  cases hdp : dropPre addrLit l with
  | none => simp only [hdp]; rfl
  | some r =>
    simp only [hdp]
    cases r with
    | nil => rfl
    | cons c rt =>
      cases hc : isWS c with
      | false => simp [hc]
      | true =>
        simp only [hc, Bool.true_and, if_true]
        cases hdw : (c :: rt).dropWhile isWS with
        | nil => simp only [hdw]; rfl
        | cons c0 r1 =>
          cases r1 with
          | nil => simp only [hdw]; rfl
          | cons c1 r2 =>
            simp only [hdw]
            cases r2 with
            | nil =>
              by_cases hcond : c0 = '0' ∧ c1 = 'x'
              · rw [if_pos hcond]; rfl
              · rw [if_neg hcond]; rfl
            | cons d r3 =>
              by_cases h0 : c0 = '0'
              · subst h0
                by_cases h1 : c1 = 'x'
                · subst h1
                  rw [if_pos ⟨rfl, rfl⟩]
                  cases hd : isHexChar d with
                  | false =>
                    rw [@List.takeWhile_cons_of_neg _ isHexChar d r3 (by simp [hd])]
                    simp [hd]
                  | true =>
                    rw [List.takeWhile_cons_of_pos (by simp [hd])]
                    simp [hd]
                · rw [if_neg (fun hh => h1 hh.2)]
                  simp [beq_eq_false_iff_ne.mpr h1]
              · rw [if_neg (fun hh => h0 hh.1)]
                simp [beq_eq_false_iff_ne.mpr h0]

theorem matchAddrAt_nil : matchAddrAt [] = none := by decide

theorem findAddr_cons (c : Char) (rest : List Char) :
    findAddr (c :: rest)
      = match matchAddrAt (c :: rest) with
        | some a => some a
        | none => findAddr rest := rfl

theorem findAddr_of_match {l a : List Char} (hm : matchAddrAt l = some a) :
    findAddr l = some a := by
  match l with
  | [] => rw [matchAddrAt_nil] at hm; simp at hm
  | c :: rest =>
    rw [findAddr_cons, hm]

theorem findAddr_skip (pre : List Char) :
    ∀ tail : List Char,
      (∀ i, i < pre.length → specStartsAddr ((pre ++ tail).drop i) = false) →
      findAddr (pre ++ tail) = findAddr tail := by
  induction pre with
  | nil => intro tail _; rfl
  | cons c pre' ih =>
    intro tail hf
    have h0 : specStartsAddr (c :: (pre' ++ tail)) = false := by
      have := hf 0 (by simp)
      simpa using this
    have hm : matchAddrAt (c :: (pre' ++ tail)) = none := by
      have he := specStartsAddr_eq (c :: (pre' ++ tail))
      rw [h0] at he
      cases hmm : matchAddrAt (c :: (pre' ++ tail)) with
      | none => rfl
      | some a => rw [hmm] at he; simp at he
    have : findAddr ((c :: pre') ++ tail) = findAddr (pre' ++ tail) := by
      simp only [List.cons_append]
      rw [findAddr_cons, hm]
    rw [this]
    refine ih tail (fun i hi => ?_)
    have := hf (i + 1) (by simp only [List.length_cons]; omega)
    simpa using this

theorem findAddr_sound {l a : List Char} (h : findAddr l = some a) :
    ∃ pre ws hex post,
      l = pre ++ addrLit ++ ws ++ ('0' :: 'x' :: hex) ++ post ∧
      ws ≠ [] ∧ ws.all isWS = true ∧ hex ≠ [] ∧ hex.all isHexChar = true ∧
      a = '0' :: 'x' :: hex := by
  induction l with
  | nil => simp [findAddr] at h
  | cons c rest ih =>
    rw [findAddr_cons] at h
    cases hm : matchAddrAt (c :: rest) with
    | some b =>
      rw [hm] at h
      cases h
      obtain ⟨ws, hex, post, hdec, hw1, hw2, hh1, hh2, _, ha⟩ := matchAddrAt_sound hm
      refine ⟨[], ws, hex, post, ?_, hw1, hw2, hh1, hh2, ha⟩
      rw [hdec]
      simp [List.append_assoc]
    | none =>
      rw [hm] at h
      obtain ⟨pre, ws, hex, post, hdec, hw1, hw2, hh1, hh2, ha⟩ := ih h
      refine ⟨c :: pre, ws, hex, post, ?_, hw1, hw2, hh1, hh2, ha⟩
      rw [show c :: rest = c :: (pre ++ addrLit ++ ws ++ ('0' :: 'x' :: hex) ++ post) by
        rw [hdec]]
      simp

theorem specContainsAddr_eq (l : List Char) :
    specContainsAddr l = (findAddr l).isSome := by
  induction l with
  | nil => rfl
  | cons c rest ih =>
    rw [findAddr_cons]
    show (specStartsAddr (c :: rest) || specContainsAddr rest) = _
    rw [specStartsAddr_eq]
    cases hm : matchAddrAt (c :: rest) with
    | some a => simp [hm]
    | none => simp [hm, ih]

theorem execCallback_false (stdout : List Char) :
    execCallback false stdout
      = match findAddr stdout with
        | some a => ⟨200, some a, none, none⟩
        | none => ⟨200, some zeroAddr, some noAddrInfo, none⟩ := rfl

/-- C4: whenever the subprocess exits non-zero or fails to spawn (the `err`
argument of the `exec` callback is set), the response is a 500 with the fixed
failure message; the result is a constant, independent of stdout, so the
address-extraction pattern is never consulted on this path. -/
theorem autoDeploy_error_path (stdout : List Char) :
    execCallback true stdout = ⟨500, none, none, some deployErrMsg⟩ := rfl

/-- C1: when the subprocess exits 0, if stdout contains a substring matching
"contract address:" + whitespace + a hex string `0x…`, the response is a 200
whose contractAddress is such a hex token occurring in stdout; if stdout
contains no such substring, the response is a 200 carrying the all-zero
address and an informational note. -/
theorem autoDeploy_success_paths (stdout : List Char) :
    (specContainsAddr stdout = true →
      ∃ pre ws hex post,
        stdout = pre ++ addrLit ++ ws ++ ('0' :: 'x' :: hex) ++ post ∧
        ws ≠ [] ∧ ws.all isWS = true ∧ hex ≠ [] ∧ hex.all isHexChar = true ∧
        execCallback false stdout
          = ⟨200, some ('0' :: 'x' :: hex), none, none⟩)
    ∧ (specContainsAddr stdout = false →
        execCallback false stdout = ⟨200, some zeroAddr, some noAddrInfo, none⟩) := by
  constructor
  · intro hc
    rw [specContainsAddr_eq] at hc
    cases hf : findAddr stdout with
    | none => rw [hf] at hc; simp at hc
    | some a =>
      obtain ⟨pre, ws, hex, post, hdec, h1, h2, h3, h4, ha⟩ := findAddr_sound hf
      refine ⟨pre, ws, hex, post, hdec, h1, h2, h3, h4, ?_⟩
      rw [execCallback_false, hf, ha]
  · intro hc
    rw [specContainsAddr_eq] at hc
    cases hf : findAddr stdout with
    | some a => rw [hf] at hc; simp at hc
    | none => rw [execCallback_false, hf]

theorem autoDeploy_success_paths_witness :
    (∃ pre ws hex post,
        "truffle: contract address: 0xabc123".toList
          = pre ++ addrLit ++ ws ++ ('0' :: 'x' :: hex) ++ post ∧
        ws ≠ [] ∧ ws.all isWS = true ∧ hex ≠ [] ∧ hex.all isHexChar = true ∧
        execCallback false "truffle: contract address: 0xabc123".toList
          = ⟨200, some ('0' :: 'x' :: hex), none, none⟩)
    ∧ execCallback false "deployment finished".toList
        = ⟨200, some zeroAddr, some noAddrInfo, none⟩ :=
  ⟨(autoDeploy_success_paths "truffle: contract address: 0xabc123".toList).1 (by decide),
   (autoDeploy_success_paths "deployment finished".toList).2 (by decide)⟩

/-- C10: on the success path the reported address is the first match in
stdout (no earlier position matches the pattern), the hex run is maximal
(the following character is not a hex digit), and at least one whitespace
character separates the colon from `0x…`. -/
theorem autoDeploy_first_address (stdout pre ws hex post : List Char)
    (hdec : stdout = pre ++ addrLit ++ ws ++ ('0' :: 'x' :: hex) ++ post)
    (h1 : ws ≠ []) (h2 : ws.all isWS = true)
    (h3 : hex ≠ []) (h4 : hex.all isHexChar = true)
    (h5 : headNot isHexChar post = true)
    (h6 : ∀ i, i < pre.length → specStartsAddr (stdout.drop i) = false) :
    execCallback false stdout = ⟨200, some ('0' :: 'x' :: hex), none, none⟩ := by
  subst hdec
  have hnorm : pre ++ addrLit ++ ws ++ ('0' :: 'x' :: hex) ++ post
      = pre ++ (addrLit ++ (ws ++ '0' :: 'x' :: (hex ++ post))) := by
    simp [List.append_assoc]
  have hm : matchAddrAt (addrLit ++ (ws ++ '0' :: 'x' :: (hex ++ post)))
      = some ('0' :: 'x' :: hex) :=
    matchAddrAt_of_parts h1 (List.all_eq_true.mp h2) h3 (List.all_eq_true.mp h4) h5
  rw [hnorm] at h6
  have hskip := findAddr_skip pre (addrLit ++ (ws ++ '0' :: 'x' :: (hex ++ post))) h6
  rw [execCallback_false, hnorm, hskip, findAddr_of_match hm]

theorem autoDeploy_first_address_witness :
    execCallback false "x contract address: 0xAB then contract address: 0xcd".toList
      = ⟨200, some "0xAB".toList, none, none⟩ := by
  have h := autoDeploy_first_address
    "x contract address: 0xAB then contract address: 0xcd".toList
    "x ".toList " ".toList "AB".toList " then contract address: 0xcd".toList
    (by decide) (by decide) (by decide) (by decide) (by decide) (by decide)
    (by decide)
  exact h

/-- The keyword literal of the rewrite regex (server.js line 151). -/
def contractKw : List Char := "contract".toList

/-- The base contract name matched by the rewrite regex (server.js line 151). -/
def baseName : List Char := "CustomMortgageLoan".toList

/-- Attempt the regex `/contract\s+CustomMortgageLoan\b/` at the head of `l`;
on success return the remainder after the match.  `\s+` is greedy and the
identifier starts with `C`, which is not whitespace, so dropping all leading
whitespace is exact; `\b` holds after the final `n` iff the next character is
not a word character (or the text ends). -/
def matchDeclAt (l : List Char) : Option (List Char) :=
  match dropPre contractKw l with
  | none => none
  | some r =>
    match r with
    | [] => none
    | c :: rt =>
      if isWS c then
        match dropPre baseName ((c :: rt).dropWhile isWS) with
        | none => none
        | some r2 =>
          match r2 with
          | [] => some []
          | d :: r3 => if isWordChar d then none else some (d :: r3)
      else none

theorem dropPre_length {p l r : List Char} (h : dropPre p l = some r) :
    l.length = p.length + r.length := by
  rw [dropPre_eq_some h]
  simp

theorem matchDeclAt_length {l r : List Char} (h : matchDeclAt l = some r) :
    r.length < l.length := by
  unfold matchDeclAt at h
  split at h
  · simp at h
  · rename_i r0 hdp
    have e1 := dropPre_length hdp
    have ekw : contractKw.length = 8 := by decide
    split at h
    · simp at h
    · rename_i c rt
      split at h
      · rename_i hc
        split at h
        · simp at h
        · rename_i r2 hdp2
          have e2 := dropPre_length hdp2
          have ebn : baseName.length = 18 := by decide
          have e3 : ((c :: rt).dropWhile isWS).length ≤ (c :: rt).length :=
            dropWhile_length_le isWS (c :: rt)
          split at h
          · cases h
            simp only [List.length_nil]
            omega
          · rename_i d r3
            split at h
            · simp at h
            · cases h
              simp only [List.length_cons] at e1 e2 e3 ⊢
              omega
      · simp at h

/-- Model of the global replacement on the generated source
(server.js lines 150-153): global left-to-right scan; each match is replaced
by `contract ` followed by the qualified name `q`, and scanning resumes after
the match. -/
def rewriteContract (q : List Char) : List Char → List Char
  | [] => []
  | c :: rest =>
    match hm : matchDeclAt (c :: rest) with
    | some r => contractKw ++ ' ' :: (q ++ rewriteContract q r)
    | none => c :: rewriteContract q rest
termination_by l => l.length
decreasing_by
  · exact matchDeclAt_length hm
  · simp only [List.length_cons]
    omega

/-- Transcribed from the spec's wording: the text begins with the literal
characters `contract`, then one or more whitespace characters, then the
identifier `CustomMortgageLoan` as a whole word (followed by a non-word
character or the end of the text). -/
def specStartsDecl (l : List Char) : Bool :=
  match dropPre contractKw l with
  | none => false
  | some r =>
    match r with
    | [] => false
    | c :: rt =>
      isWS c &&
        (match dropPre baseName ((c :: rt).dropWhile isWS) with
         | none => false
         | some [] => true
         | some (d :: _) => !isWordChar d)

example : specStartsDecl "contract  \n CustomMortgageLoan \x7b".toList = true := by decide

example : specStartsDecl "contract CustomMortgageLoanX".toList = false := by decide

example : specStartsDecl "contractCustomMortgageLoan".toList = false := by decide

theorem matchDeclAt_nil : matchDeclAt [] = none := by decide

theorem rewriteContract_nil (q : List Char) : rewriteContract q [] = [] := by
  rw [rewriteContract.eq_def]

theorem rewriteContract_match {q l r : List Char} (hm : matchDeclAt l = some r) :
    rewriteContract q l = contractKw ++ ' ' :: (q ++ rewriteContract q r) := by
  match l with
  | [] => rw [matchDeclAt_nil] at hm; simp at hm
  | c :: rest =>
    rw [rewriteContract.eq_def]
    split
    · rename_i heq
      simp at heq
    · rename_i c' rest' heq
      injection heq with h1 h2
      subst h1
      subst h2
      split
      · rename_i r' heq2
        rw [hm] at heq2
        cases heq2
        rfl
      · rename_i heq2
        rw [hm] at heq2
        cases heq2

theorem rewriteContract_nomatch {q : List Char} {c : Char} {rest : List Char}
    (hm : matchDeclAt (c :: rest) = none) :
    rewriteContract q (c :: rest) = c :: rewriteContract q rest := by
  rw [rewriteContract.eq_def]
  split
  · rename_i heq
    simp at heq
  · rename_i c' rest' heq
    injection heq with h1 h2
    subst h1
    subst h2
    split
    · rename_i r' heq2
      rw [hm] at heq2
      cases heq2
    · rfl

theorem specStartsDecl_eq (l : List Char) :
    specStartsDecl l = (matchDeclAt l).isSome := by
  unfold specStartsDecl matchDeclAt
  cases hdp : dropPre contractKw l with
  | none => simp only [hdp]; rfl
  | some r =>
    simp only [hdp]
    cases r with
    | nil => rfl
    | cons c rt =>
      cases hc : isWS c with
      | false => simp [hc]
      | true =>
        simp only [hc, Bool.true_and, if_true]
        cases hdp2 : dropPre baseName ((c :: rt).dropWhile isWS) with
        | none => simp only [hdp2]; rfl
        | some r2 =>
          simp only [hdp2]
          cases r2 with
          | nil => rfl
          | cons d r3 =>
            cases hd : isWordChar d with
            | false => simp [hd]
            | true => simp [hd]

theorem matchDeclAt_of_parts {ws r : List Char}
    (h1 : ws ≠ []) (h2 : ∀ c ∈ ws, isWS c = true)
    (h5 : headNot isWordChar r = true) :
    matchDeclAt (contractKw ++ (ws ++ (baseName ++ r))) = some r := by
  obtain ⟨w, ws', rfl⟩ := List.exists_cons_of_ne_nil h1
  have hw : isWS w = true := h2 w (by simp)
  have e1 : dropPre contractKw (contractKw ++ ((w :: ws') ++ (baseName ++ r)))
      = some ((w :: ws') ++ (baseName ++ r)) :=
    dropPre_self_append _ _
  have ebn : baseName = 'C' :: "ustomMortgageLoan".toList := by decide
  have e2 : ((w :: ws') ++ (baseName ++ r)).dropWhile isWS = baseName ++ r := by
    rw [ebn, List.cons_append]
    exact dropWhile_all_head h2 (by decide) _
  have e3 : dropPre baseName (baseName ++ r) = some r := dropPre_self_append _ _
  simp only [List.cons_append] at e1 e2 e3 ⊢
  simp only [matchDeclAt, e1, hw, if_true, e2, e3]
  cases r with
  | nil => rfl
  | cons d r3 =>
    simp only [headNot, Bool.not_eq_true'] at h5
    simp [h5]

/-- C3: for every qualified name `q`, the rewrite replaces each occurrence of
the literal characters `contract`, one or more whitespace characters, and the
identifier `CustomMortgageLoan` as a whole word (trailing word boundary) by
`contract q` and continues after the match, while at every position that does
not begin such an occurrence the character is copied unchanged — in
particular every occurrence of the identifier not preceded by the
`contract` + whitespace pattern is left untouched. -/
theorem rewriteContract_characterization (q : List Char) :
    (∀ ws r, ws ≠ [] → ws.all isWS = true → headNot isWordChar r = true →
      rewriteContract q (contractKw ++ ws ++ baseName ++ r)
        = contractKw ++ ' ' :: (q ++ rewriteContract q r))
    ∧ (∀ c rest, specStartsDecl (c :: rest) = false →
      rewriteContract q (c :: rest) = c :: rewriteContract q rest) := by
  constructor
  · intro ws r h1 h2 h5
    have hm := matchDeclAt_of_parts h1 (List.all_eq_true.mp h2) h5
    have hassoc : contractKw ++ ws ++ baseName ++ r
        = contractKw ++ (ws ++ (baseName ++ r)) := by
      simp [List.append_assoc]
    rw [hassoc]
    exact rewriteContract_match hm
  · intro c rest h
    have hm : matchDeclAt (c :: rest) = none := by
      have he := specStartsDecl_eq (c :: rest)
      rw [h] at he
      cases hmm : matchDeclAt (c :: rest) with
      | none => rfl
      | some a => rw [hmm] at he; simp at he
    exact rewriteContract_nomatch hm

theorem rewriteContract_characterization_witness :
    rewriteContract "CML_1700".toList
        (contractKw ++ ['\n', '\t'] ++ baseName ++ " is".toList)
      = contractKw ++ ' ' :: ("CML_1700".toList
          ++ rewriteContract "CML_1700".toList " is".toList)
    ∧ rewriteContract "CML_1700".toList ('x' :: "contract".toList)
      = 'x' :: rewriteContract "CML_1700".toList "contract".toList :=
  ⟨(rewriteContract_characterization "CML_1700".toList).1 ['\n', '\t'] " is".toList
      (by decide) (by decide) (by decide),
   (rewriteContract_characterization "CML_1700".toList).2 'x' "contract".toList
      (by decide)⟩

/-- C9: the rewrite does not preserve the whitespace of the matched
declaration — whatever whitespace run separated the keyword from the
identifier, the replacement is `contract`, exactly one space, and the
qualified name (so for any whitespace run other than a single space the
original spacing is lost). -/
theorem rewriteContract_single_space (q ws : List Char)
    (h1 : ws ≠ []) (h2 : ws.all isWS = true) :
    rewriteContract q (contractKw ++ ws ++ baseName) = contractKw ++ ' ' :: q
    ∧ (ws ≠ [' '] → contractKw ++ ' ' :: q ≠ contractKw ++ ws ++ q) := by
  constructor
  · have hm := matchDeclAt_of_parts h1 (List.all_eq_true.mp h2)
      (show headNot isWordChar [] = true from rfl)
    have hassoc : contractKw ++ ws ++ baseName
        = contractKw ++ (ws ++ (baseName ++ [])) := by
      simp [List.append_assoc]
    rw [hassoc, rewriteContract_match hm, rewriteContract_nil]
    simp
  · intro hws heq
    rw [List.append_assoc] at heq
    have h' : ' ' :: q = ws ++ q := List.append_cancel_left heq
    have hlen : ws.length = 1 := by
      have := congrArg List.length h'
      simp at this
      omega
    obtain ⟨w, ws', rfl⟩ := List.exists_cons_of_ne_nil h1
    have : ws' = [] := by
      simp at hlen
      exact hlen
    subst this
    simp only [List.cons_append, List.nil_append] at h'
    have : w = ' ' := (List.cons.injEq _ _ _ _ ▸ h').1.symm
    subst this
    exact hws rfl

theorem rewriteContract_single_space_witness :
    rewriteContract "Q2".toList (contractKw ++ ['\n', ' '] ++ baseName)
      = contractKw ++ ' ' :: "Q2".toList
    ∧ contractKw ++ ' ' :: "Q2".toList ≠ contractKw ++ ['\n', ' '] ++ "Q2".toList :=
  have h := rewriteContract_single_space "Q2".toList ['\n', ' '] (by decide) (by decide)
  ⟨h.1, h.2 (by decide)⟩

/-- Borrower contact data (server.js lines 25-29). -/
structure Contact where
  phone : String
  email : String
  address : String
deriving DecidableEq

/-- Borrower data (server.js lines 23-30). -/
structure Borrower where
  name : String
  contact : Contact
deriving DecidableEq

/-- Loan details (server.js lines 31-35). -/
structure LoanDetails where
  loanAmount : Nat
  loanType : String
  desiredTimeline : String
deriving DecidableEq

/-- The hardcoded loan record (server.js lines 21-36). -/
structure LoanData where
  contractName : String
  borrower : Borrower
  loanDetails : LoanDetails
deriving DecidableEq

/-- The hardcoded `loanData` constant (server.js lines 21-36). -/
def loanData : LoanData :=
  ⟨"MortgageLoan",
   ⟨"YJ", ⟨"+1-555-123-4567", "manny@example.com",
      "123 Elm Street, Springfield, IL, 62704"⟩⟩,
   ⟨200000, "Home Loan", "2025-06-30"⟩⟩

/-- Model of `JSON.stringify(loanData.borrower)`: compact JSON with keys in insertion
order, as produced by Node for this object. -/
def stringifyBorrower (b : Borrower) : String :=
  "\x7b\"name\":\"" ++ b.name ++ "\",\"contact\":\x7b\"phone\":\"" ++ b.contact.phone
    ++ "\",\"email\":\"" ++ b.contact.email ++ "\",\"address\":\"" ++ b.contact.address
    ++ "\"\x7d\x7d"

/-- The `/generate-prompt` prompt template (server.js lines 59-73). -/
def generatePromptText : String :=
  "\n      Generate a Solidity smart contract named \"" ++ loanData.contractName
    ++ "\" with:\n      - Borrower details: " ++ stringifyBorrower loanData.borrower
    ++ "\n      - Loan amount: " ++ toString loanData.loanDetails.loanAmount
    ++ "\n      - Loan type: " ++ loanData.loanDetails.loanType
    ++ "\n      - Timeline: " ++ loanData.loanDetails.desiredTimeline
    ++ "\n      Include:\n      - Borrower physicalAddress (mention address as physicalAddress) storage\n      - Loan amount and type storage\n      - Timeline validation\n      - Loan status management (Pending, Approved, Rejected, Repaid)\n      - Admin controls\n      - SPDX-License-Identifier: MIT\n      - pragma solidity ^0.8.0 (MUST HAVE)\n    "

/-- The `/auto-deploy` prompt template (server.js lines 106-120). -/
def autoDeployPromptText : String :=
  "\n      You are a highly skilled Solidity dev.\n      Generate a complete Solidity contract named \"CustomMortgageLoan\" for a loan with:\n      - Borrower details: "
    ++ stringifyBorrower loanData.borrower
    ++ "\n      - Loan amount: " ++ toString loanData.loanDetails.loanAmount
    ++ "\n      - Loan type: " ++ loanData.loanDetails.loanType
    ++ "\n      - Desired timeline: " ++ loanData.loanDetails.desiredTimeline
    ++ "\n      \n      Requirements:\n      1) pragma solidity ^0.8.0\n      2) Include admin, statuses (Pending, Approved, Rejected, Repaid)\n      3) Provide only valid Solidity code, NO extra text, nothing else.\n      4) No lines before or after the code. Just the Solidity. \n      5) Do not use 'address' for physicalAddress. Use 'physicalAddress' in struct, etc.\n    "

/-- Holds iff `pat` occurs as a contiguous substring of the text. -/
def containsSub (pat : List Char) : List Char → Bool
  | [] => pat.isEmpty
  | c :: rest => (dropPre pat (c :: rest)).isSome || containsSub pat rest

set_option maxRecDepth 100000 in
/-- C5: both prompt templates interpolate the hardcoded loan record's fields;
in particular the loan amount 200000, the loan type "Home Loan" and the
timeline "2025-06-30" all appear verbatim in each produced prompt string. -/
theorem prompts_interpolate_loan_fields :
    toString loanData.loanDetails.loanAmount = "200000"
    ∧ loanData.loanDetails.loanType = "Home Loan"
    ∧ loanData.loanDetails.desiredTimeline = "2025-06-30"
    ∧ containsSub "200000".toList generatePromptText.toList = true
    ∧ containsSub "Home Loan".toList generatePromptText.toList = true
    ∧ containsSub "2025-06-30".toList generatePromptText.toList = true
    ∧ containsSub "200000".toList autoDeployPromptText.toList = true
    ∧ containsSub "Home Loan".toList autoDeployPromptText.toList = true
    ∧ containsSub "2025-06-30".toList autoDeployPromptText.toList = true := by
  refine ⟨by decide, rfl, rfl, by decide, by decide, by decide, by decide, by decide,
    by decide⟩

/-- The timestamp-qualified contract name (server.js line 138). -/
def contractNameOf (ts : Nat) : String :=
  "CustomMortgageLoan_" ++ toString ts

/-- The `.sol` file name (server.js line 146). -/
def solFileNameOf (ts : Nat) : String :=
  contractNameOf ts ++ ".sol"

/-- The migration file name (server.js line 166). -/
def migrationFileNameOf (ts : Nat) : String :=
  toString ts ++ "_deploy_" ++ contractNameOf ts ++ ".js"

/-- The migration script body (server.js lines 169-175). -/
def migrationContentOf (ts : Nat) : String :=
  "\nconst " ++ contractNameOf ts ++ " = artifacts.require(\"" ++ contractNameOf ts
    ++ "\");\n\nmodule.exports = function (deployer) \x7b\n  deployer.deploy("
    ++ contractNameOf ts ++ ");\n\x7d;\n"

/-- Transcribed from the spec's wording: the migration template with its
three name slots (declared artifact variable, `artifacts.require` argument,
`deployer.deploy` argument) filled independently. -/
def migrationTemplateWith (declName reqName depName : String) : String :=
  "\nconst " ++ declName ++ " = artifacts.require(\"" ++ reqName
    ++ "\");\n\nmodule.exports = function (deployer) \x7b\n  deployer.deploy("
    ++ depName ++ ");\n\x7d;\n"

/-- C6: one and the same qualified name is used as the `.sol` file's base
name, in all three name slots of the migration script, in the migration file
name, and as the declaration name substituted into the rewritten source. -/
theorem migration_name_consistency (ts : Nat) :
    ∃ n : String,
      n = contractNameOf ts
      ∧ solFileNameOf ts = n ++ ".sol"
      ∧ migrationFileNameOf ts = toString ts ++ "_deploy_" ++ n ++ ".js"
      ∧ migrationContentOf ts = migrationTemplateWith n n n
      ∧ rewriteContract n.toList (contractKw ++ ' ' :: baseName)
          = contractKw ++ ' ' :: n.toList := by
  refine ⟨contractNameOf ts, rfl, rfl, rfl, rfl, ?_⟩
  have hm : matchDeclAt (contractKw ++ ([' '] ++ (baseName ++ []))) = some [] :=
    matchDeclAt_of_parts (by decide) (by decide) rfl
  have e : contractKw ++ ' ' :: baseName = contractKw ++ ([' '] ++ (baseName ++ [])) := by
    simp
  rw [e, rewriteContract_match hm, rewriteContract_nil]
  simp

/-- Numeric value of a decimal digit character. -/
def decDigit (c : Char) : Nat := c.toNat - 48

/-- Decimal value of a digit string (most significant first). -/
def decodeDec (l : List Char) : Nat := l.foldl (fun a c => 10 * a + decDigit c) 0

/-- Decimal digit characters of `n`, most significant first: the reference
rendering equal to what `Nat.toDigits 10` produces. -/
def decDigits (n : Nat) : List Char :=
  if n < 10 then [Nat.digitChar n] else decDigits (n / 10) ++ [Nat.digitChar (n % 10)]
termination_by n
decreasing_by
  exact Nat.div_lt_self (by omega) (by omega)

theorem toDigitsCore_eq_decDigits (fuel : Nat) :
    ∀ (n : Nat) (acc : List Char), n < fuel →
      Nat.toDigitsCore 10 fuel n acc = decDigits n ++ acc := by
  induction fuel with
  | zero => intro n acc h; omega
  | succ f ih =>
    intro n acc h
    rw [Nat.toDigitsCore]
    by_cases h0 : n / 10 = 0
    · rw [if_pos h0]
      have hn : n < 10 := by omega
      rw [decDigits, if_pos hn]
      have : n % 10 = n := Nat.mod_eq_of_lt hn
      rw [this]
      rfl
    · rw [if_neg h0]
      have h1 : n / 10 < f := by
        have h2 : n / 10 < n := Nat.div_lt_self (by omega) (by omega)
        omega
      rw [ih (n / 10) (Nat.digitChar (n % 10) :: acc) h1]
      have e : decDigits n = decDigits (n / 10) ++ [Nat.digitChar (n % 10)] := by
        rw [decDigits]
        rw [if_neg (by omega)]
      rw [e]
      simp

theorem decodeDec_append_digit (l : List Char) (c : Char) :
    decodeDec (l ++ [c]) = 10 * decodeDec l + decDigit c := by
  simp [decodeDec, List.foldl_append]

theorem decDigit_digitChar {d : Nat} (h : d < 10) :
    decDigit (Nat.digitChar d) = d := by
  interval_cases d <;> decide

theorem decodeDec_decDigits (n : Nat) : decodeDec (decDigits n) = n := by
  induction n using Nat.strong_induction_on with
  | _ n ih =>
    by_cases h : n < 10
    · rw [decDigits, if_pos h]
      show decodeDec [Nat.digitChar n] = n
      simp [decodeDec]
      exact decDigit_digitChar h
    · rw [decDigits, if_neg h, decodeDec_append_digit,
        ih (n / 10) (Nat.div_lt_self (by omega) (by omega)),
        decDigit_digitChar (Nat.mod_lt _ (by omega))]
      omega

theorem decDigits_inj {m n : Nat} (h : decDigits m = decDigits n) : m = n := by
  have h2 := congrArg decodeDec h
  rwa [decodeDec_decDigits, decodeDec_decDigits] at h2

theorem natRepr_eq (n : Nat) : Nat.repr n = (decDigits n).asString := by
  show (Nat.toDigits 10 n).asString = _
  rw [Nat.toDigits, toDigitsCore_eq_decDigits (n + 1) n [] (by omega)]
  simp

theorem toString_nat_data (n : Nat) : (toString n : String).data = decDigits n := by
  show (Nat.repr n).data = decDigits n
  rw [natRepr_eq]
  rfl

theorem toString_nat_inj {m n : Nat} (h : (toString m : String) = toString n) :
    m = n := by
  have h2 := congrArg String.data h
  rw [toString_nat_data, toString_nat_data] at h2
  exact decDigits_inj h2

/-- Path of the written `.sol` file: `path.join(__dirname, 'contracts')`
followed by `path.join(contractsDir, solFileName)` (server.js lines 139-147),
with the process's `__dirname` abstracted as a parameter. -/
def solFilePathOf (dir : String) (ts : Nat) : String :=
  dir ++ "/contracts/" ++ solFileNameOf ts

/-- Path of the written migration file (server.js lines 161-167). -/
def migrationFilePathOf (dir : String) (ts : Nat) : String :=
  dir ++ "/migrations/" ++ migrationFileNameOf ts

/-- C8: two deploy requests with distinct timestamps produce distinct
qualified contract names, and all four file paths written by the two
requests (each request's `.sol` file and migration file, under the same
`__dirname`) are pairwise distinct, so neither request overwrites the
other's files. -/
theorem deploy_files_distinct (dir : String) (t1 t2 : Nat) (h : t1 ≠ t2) :
    contractNameOf t1 ≠ contractNameOf t2
    ∧ solFilePathOf dir t1 ≠ solFilePathOf dir t2
    ∧ migrationFilePathOf dir t1 ≠ migrationFilePathOf dir t2
    ∧ solFilePathOf dir t1 ≠ migrationFilePathOf dir t2
    ∧ solFilePathOf dir t2 ≠ migrationFilePathOf dir t1 := by
  have hne : decDigits t1 ≠ decDigits t2 := fun hd => h (decDigits_inj hd)
  have hcross : ∀ s u : Nat, solFilePathOf dir s ≠ migrationFilePathOf dir u := by
    intro s u heq
    have hd := congrArg String.data heq
    simp only [solFilePathOf, migrationFilePathOf, String.data_append,
      List.append_assoc] at hd
    have hd2 := List.append_cancel_left hd
    simp only [List.cons_append] at hd2
    injection hd2 with _ hd3
    injection hd3 with hch _
    exact absurd hch (by decide)
  refine ⟨?_, ?_, ?_, hcross t1 t2, hcross t2 t1⟩
  · intro heq
    have hd := congrArg String.data heq
    simp only [contractNameOf, String.data_append, toString_nat_data] at hd
    exact hne (List.append_cancel_left hd)
  · intro heq
    have hd := congrArg String.data heq
    simp only [solFilePathOf, solFileNameOf, contractNameOf, String.data_append,
      toString_nat_data, List.append_assoc] at hd
    have hd2 := List.append_cancel_left
      (List.append_cancel_left (List.append_cancel_left hd))
    exact hne (List.append_cancel_right hd2)
  · intro heq
    have hd := congrArg String.data heq
    simp only [migrationFilePathOf, migrationFileNameOf, contractNameOf,
      String.data_append, toString_nat_data, List.append_assoc] at hd
    have hd2 := List.append_cancel_left (List.append_cancel_left hd)
    have hlen := congrArg List.length hd2
    simp only [List.length_append] at hlen
    obtain ⟨h1, _⟩ := List.append_inj hd2 (by omega)
    exact hne h1

theorem deploy_files_distinct_witness :
    contractNameOf 1700000000000 ≠ contractNameOf 1700000000001
    ∧ solFilePathOf "/srv" 1700000000000 ≠ solFilePathOf "/srv" 1700000000001
    ∧ migrationFilePathOf "/srv" 1700000000000
        ≠ migrationFilePathOf "/srv" 1700000000001
    ∧ solFilePathOf "/srv" 1700000000000 ≠ migrationFilePathOf "/srv" 1700000000001
    ∧ solFilePathOf "/srv" 1700000000001 ≠ migrationFilePathOf "/srv" 1700000000000 :=
  deploy_files_distinct "/srv" 1700000000000 1700000000001 (by decide)

end Server
